import Mathlib

/-
Verification of the `set` Go package: a generic set data structure backed by a
Go map whose keys are the members.  We model the map by the list of its keys
(`m`), kept free of duplicates; every operation below is a direct translation
of the corresponding Go function.
-/

set_option maxHeartbeats 1000000

/-- The common baseline struct of both variants: a Go map, modelled by the
list of its keys in iteration order. -/
structure GoSet (T : Type) where
  m : List T
deriving DecidableEq, Repr

namespace GoSet

variable {T : Type} [DecidableEq T]

/-- One map insertion, the body of the loop in `Add`: a present key is
overwritten (the key set is unchanged), a new key is appended. -/
def add1 (s : GoSet T) (item : T) : GoSet T :=
  if item ∈ s.m then s else ⟨s.m ++ [item]⟩

/-- `Add` includes the specified items to the set: for each item the map entry
is set.  The early return on an empty argument list changes nothing. -/
def Add (s : GoSet T) (items : List T) : GoSet T :=
  items.foldl add1 s

/-- One map deletion, the loop body of `Remove`: the key is removed. -/
def remove1 (s : GoSet T) (item : T) : GoSet T :=
  ⟨s.m.filter (fun y => y ≠ item)⟩

/-- `Remove` deletes the specified items from the set. -/
def Remove (s : GoSet T) (items : List T) : GoSet T :=
  items.foldl remove1 s

/-- `Pop` deletes and returns an item from the set together with a found flag;
on an empty set it reports not-found (zero value modelled by `none`). -/
def Pop (s : GoSet T) : Option T × GoSet T :=
  match s.m with
  | [] => (none, s)
  | x :: rest => (some x, ⟨rest⟩)

/-- `Has` returns false when passed nothing, otherwise true only if all the
passed items exist (the Go loop breaks on the first miss). -/
def Has (s : GoSet T) (items : List T) : Bool :=
  if items.isEmpty then false
  else items.all (fun item => decide (item ∈ s.m))

/-- `Size` returns the number of items in a set: `len(s.m)`. -/
def Size (s : GoSet T) : Nat :=
  s.m.length

/-- `Clear` replaces the map with a fresh empty map. -/
def Clear (_ : GoSet T) : GoSet T :=
  ⟨[]⟩

/-- `IsEmpty` reports whether the set has size zero. -/
def IsEmpty (s : GoSet T) : Bool :=
  Size s == 0

/-- The `Each` traversal pattern used by `IsEqual` and `IsSubset`: a Bool
variable starts true, is updated by the closure at each member, and the loop
breaks as soon as it turns false; the final value is returned. -/
def eachWhile : List T → (T → Bool) → Bool
  | [], _ => true
  | x :: xs, f => if f x then eachWhile xs f else false

/-- `IsEqual` returns false when the sizes differ, otherwise traverses `t`
checking each of its items for membership in `s`, stopping at a miss. -/
def IsEqual (s t : GoSet T) : Bool :=
  if s.m.length == Size t then eachWhile t.m (fun item => decide (item ∈ s.m))
  else false

/-- `IsSubset` tests whether `t` is a subset of `s` by traversing `t`. -/
def IsSubset (s t : GoSet T) : Bool :=
  eachWhile t.m (fun item => decide (item ∈ s.m))

/-- `IsSuperset` tests whether `t` is a superset of `s`. -/
def IsSuperset (s t : GoSet T) : Bool :=
  IsSubset t s

/-- `List()` returns a slice of all items, i.e. the keys of the map. -/
def List' (s : GoSet T) : List T :=
  s.m

/-- `newNonTS` creates a set with a fresh empty map. -/
def newNonTS : GoSet T :=
  ⟨[]⟩

/-- `Copy` builds a fresh set and adds every item of `s` to it, one by one. -/
def Copy (s : GoSet T) : GoSet T :=
  s.m.foldl add1 ⟨[]⟩

/-- `Merge` inserts every item of `t` into the map of `s`. -/
def Merge (s t : GoSet T) : GoSet T :=
  t.m.foldl add1 s

/-- `Separate` removes from `s` the items contained in `t`, via
`s.Remove(t.List()...)`. -/
def Separate (s t : GoSet T) : GoSet T :=
  Remove s (List' t)

/-- Package-level `Union`: copy the first set, then add every member of the
second set and of each further set. -/
def Union (set1 set2 : GoSet T) (sets : List (GoSet T)) : GoSet T :=
  sets.foldl (fun u s => s.m.foldl add1 u) ((Copy set1).Merge set2)

/-- Package-level `Difference`: copy the first set, then `Separate` each of
the other sets from it. -/
def Difference (set1 set2 : GoSet T) (sets : List (GoSet T)) : GoSet T :=
  sets.foldl Separate (Separate (Copy set1) set2)

/-- Package-level `Intersection`: build the union of all inputs twice (as the
candidate pool `all` and as the working `result`), then walk the pool and
remove from `result` every candidate missing from some input. -/
def Intersection (set1 set2 : GoSet T) (sets : List (GoSet T)) : GoSet T :=
  (Union set1 set2 sets).m.foldl
    (fun res item =>
      let res1 := if !(Has set1 [item]) || !(Has set2 [item])
        then Remove res [item] else res
      sets.foldl
        (fun r s => if !(Has s [item]) then Remove r [item] else r) res1)
    (Union set1 set2 sets)

/-- Package-level `SymmetricDifference`: the union of the two differences. -/
def SymmetricDifference (s t : GoSet T) : GoSet T :=
  Union (Difference s t []) (Difference t s []) []

/-- The map invariant: keys are pairwise distinct. -/
def Inv (s : GoSet T) : Prop :=
  s.m.Nodup

theorem mem_add1 {s : GoSet T} {x y : T} :
    x ∈ (add1 s y).m ↔ x ∈ s.m ∨ x = y := by
  unfold add1
  by_cases h : y ∈ s.m
  · simp only [h, if_pos]
    constructor
    · exact Or.inl
    · rintro (hx | rfl)
      · exact hx
      · exact h
  · simp [h]

theorem mem_foldl_add1 {l : List T} {s : GoSet T} {x : T} :
    x ∈ (l.foldl add1 s).m ↔ x ∈ s.m ∨ x ∈ l := by
  induction l generalizing s with
  | nil => simp
  | cons y ys ih =>
    simp only [List.foldl_cons, ih, mem_add1, List.mem_cons]
    tauto

theorem mem_Add {s : GoSet T} {items : List T} {x : T} :
    x ∈ (Add s items).m ↔ x ∈ s.m ∨ x ∈ items :=
  mem_foldl_add1

theorem mem_remove1 {s : GoSet T} {x y : T} :
    x ∈ (remove1 s y).m ↔ x ∈ s.m ∧ x ≠ y := by
  simp [remove1]

theorem mem_Remove {s : GoSet T} {items : List T} {x : T} :
    x ∈ (Remove s items).m ↔ x ∈ s.m ∧ x ∉ items := by
  unfold Remove
  induction items generalizing s with
  | nil => simp
  | cons y ys ih =>
    simp only [List.foldl_cons, ih, mem_remove1, List.mem_cons]
    tauto

theorem nodup_add1 {s : GoSet T} {y : T} (h : Inv s) : Inv (add1 s y) := by
  unfold Inv add1 at *
  by_cases hy : y ∈ s.m
  · simpa [hy]
  · simp [hy, List.nodup_append, h]

theorem nodup_foldl_add1 {l : List T} {s : GoSet T} (h : Inv s) :
    Inv (l.foldl add1 s) := by
  induction l generalizing s with
  | nil => exact h
  | cons y ys ih => exact ih (nodup_add1 h)

theorem nodup_Add {s : GoSet T} {items : List T} (h : Inv s) :
    Inv (Add s items) :=
  nodup_foldl_add1 h

theorem nodup_remove1 {s : GoSet T} {y : T} (h : Inv s) : Inv (remove1 s y) :=
  List.Nodup.filter _ h

theorem nodup_Remove {s : GoSet T} {items : List T} (h : Inv s) :
    Inv (Remove s items) := by
  unfold Remove
  induction items generalizing s with
  | nil => exact h
  | cons y ys ih => exact ih (nodup_remove1 h)

theorem mem_Copy {s : GoSet T} {x : T} : x ∈ (Copy s).m ↔ x ∈ s.m := by
  unfold Copy
  rw [mem_foldl_add1]
  simp

theorem nodup_Copy (s : GoSet T) : Inv (Copy s) :=
  nodup_foldl_add1 (by simp [Inv])

theorem mem_Merge {s t : GoSet T} {x : T} :
    x ∈ (Merge s t).m ↔ x ∈ s.m ∨ x ∈ t.m :=
  mem_foldl_add1

theorem mem_Separate {s t : GoSet T} {x : T} :
    x ∈ (Separate s t).m ↔ x ∈ s.m ∧ x ∉ t.m :=
  mem_Remove

theorem mem_Union {a b : GoSet T} {sets : List (GoSet T)} {x : T} :
    x ∈ (Union a b sets).m ↔ x ∈ a.m ∨ x ∈ b.m ∨ ∃ s ∈ sets, x ∈ s.m := by
  unfold Union
  have base : ∀ (l : List (GoSet T)) (u : GoSet T),
      x ∈ (l.foldl (fun u s => s.m.foldl add1 u) u).m ↔
        x ∈ u.m ∨ ∃ s ∈ l, x ∈ s.m := by
    intro l
    induction l with
    | nil => simp
    | cons c cs ih =>
      intro u
      simp only [List.foldl_cons, ih, mem_foldl_add1, List.mem_cons]
      constructor
      · rintro ((h | h) | ⟨s, hs, hx⟩)
        · exact Or.inl h
        · exact Or.inr ⟨c, Or.inl rfl, h⟩
        · exact Or.inr ⟨s, Or.inr hs, hx⟩
      · rintro (h | ⟨s, (rfl | hs), hx⟩)
        · exact Or.inl (Or.inl h)
        · exact Or.inl (Or.inr hx)
        · exact Or.inr ⟨s, hs, hx⟩
  rw [base]
  simp only [mem_Merge, mem_Copy]
  tauto

theorem nodup_Union {a b : GoSet T} {sets : List (GoSet T)} :
    Inv (Union a b sets) := by
  unfold Union
  have base : ∀ (l : List (GoSet T)) (u : GoSet T), Inv u →
      Inv (l.foldl (fun u s => s.m.foldl add1 u) u) := by
    intro l
    induction l with
    | nil => exact fun _ h => h
    | cons c cs ih => exact fun u hu => ih _ (nodup_foldl_add1 hu)
  exact base _ _ (nodup_foldl_add1 (nodup_Copy _))

theorem mem_Difference {a b : GoSet T} {sets : List (GoSet T)} {x : T} :
    x ∈ (Difference a b sets).m ↔
      x ∈ a.m ∧ x ∉ b.m ∧ ∀ s ∈ sets, x ∉ s.m := by
  unfold Difference
  have base : ∀ (l : List (GoSet T)) (u : GoSet T),
      x ∈ (l.foldl Separate u).m ↔ x ∈ u.m ∧ ∀ s ∈ l, x ∉ s.m := by
    intro l
    induction l with
    | nil => simp
    | cons c cs ih =>
      intro u
      simp only [List.foldl_cons, ih, mem_Separate, List.mem_cons]
      constructor
      · rintro ⟨⟨hu, hc⟩, hrest⟩
        refine ⟨hu, ?_⟩
        rintro s (rfl | hs)
        · exact hc
        · exact hrest s hs
      · rintro ⟨hu, hall⟩
        exact ⟨⟨hu, hall c (Or.inl rfl)⟩, fun s hs => hall s (Or.inr hs)⟩
  rw [base]
  simp only [mem_Separate, mem_Copy]
  tauto

theorem nodup_Difference {a b : GoSet T} {sets : List (GoSet T)} :
    Inv (Difference a b sets) := by
  unfold Difference
  have base : ∀ (l : List (GoSet T)) (u : GoSet T), Inv u →
      Inv (l.foldl Separate u) := by
    intro l
    induction l with
    | nil => exact fun _ h => h
    | cons c cs ih => exact fun u hu => ih _ (nodup_Remove hu)
  exact base _ _ (nodup_Remove (nodup_Copy _))

theorem eachWhile_eq_all {l : List T} {f : T → Bool} :
    eachWhile l f = true ↔ ∀ x ∈ l, f x = true := by
  induction l with
  | nil => simp [eachWhile]
  | cons y ys ih =>
    unfold eachWhile
    by_cases hy : f y = true
    · simp [hy, ih]
    · simp [hy]

theorem Has_nil (s : GoSet T) : Has s [] = false := by
  simp [Has]

theorem Has_iff {s : GoSet T} {items : List T} :
    Has s items = true ↔ items ≠ [] ∧ ∀ x ∈ items, x ∈ s.m := by
  unfold Has
  by_cases h : items = []
  · simp [h]
  · simp [h, List.isEmpty_iff]

theorem Has_singleton {s : GoSet T} {x : T} :
    Has s [x] = decide (x ∈ s.m) := by
  simp [Has]

theorem IsEqual_iff {s t : GoSet T} :
    IsEqual s t = true ↔ s.m.length = t.m.length ∧ ∀ x ∈ t.m, x ∈ s.m := by
  unfold IsEqual Size
  by_cases h : s.m.length = t.m.length
  · simp [h, eachWhile_eq_all]
  · simp [h]

theorem IsEqual_iff_same_mem {s t : GoSet T} (hs : Inv s) (ht : Inv t) :
    IsEqual s t = true ↔ ∀ x, x ∈ s.m ↔ x ∈ t.m := by
  rw [IsEqual_iff]
  constructor
  · rintro ⟨hlen, hsub⟩
    have hsubF : t.m.toFinset ⊆ s.m.toFinset := by
      intro x hx
      rw [List.mem_toFinset] at *
      exact hsub x hx
    have hcard : s.m.toFinset.card ≤ t.m.toFinset.card := by
      rw [List.toFinset_card_of_nodup hs, List.toFinset_card_of_nodup ht]
      exact le_of_eq hlen
    have heq := Finset.eq_of_subset_of_card_le hsubF hcard
    intro x
    rw [← List.mem_toFinset, ← heq, List.mem_toFinset]
  · intro hmem
    have heq : s.m.toFinset = t.m.toFinset := by
      ext x
      rw [List.mem_toFinset, List.mem_toFinset]
      exact hmem x
    refine ⟨?_, fun x hx => (hmem x).mpr hx⟩
    rw [← List.toFinset_card_of_nodup hs, ← List.toFinset_card_of_nodup ht,
      heq]

theorem mem_condRemove_fixed {item : T} {l : List (GoSet T)} {r : GoSet T}
    {y : T} :
    y ∈ (l.foldl
      (fun r s => if !(Has s [item]) then Remove r [item] else r) r).m ↔
      y ∈ r.m ∧ (y = item → ∀ s ∈ l, item ∈ s.m) := by
  induction l generalizing r with
  | nil => simp
  | cons c cs ih =>
    simp only [List.foldl_cons, ih, List.mem_cons]
    have hstep : y ∈ (if !(Has c [item]) then Remove r [item] else r).m ↔
        y ∈ r.m ∧ (y = item → item ∈ c.m) := by
      rw [Has_singleton]
      by_cases hc : item ∈ c.m
      · simp [hc]
      · simp [hc, mem_Remove]
    rw [hstep]
    constructor
    · rintro ⟨⟨hr, h1⟩, h2⟩
      refine ⟨hr, ?_⟩
      rintro rfl s (rfl | hs)
      · exact h1 rfl
      · exact h2 rfl s hs
    · rintro ⟨hr, h⟩
      exact ⟨⟨hr, fun hy => h hy c (Or.inl rfl)⟩,
        fun hy s hs => h hy s (Or.inr hs)⟩

theorem mem_Intersection {a b : GoSet T} {sets : List (GoSet T)} {x : T} :
    x ∈ (Intersection a b sets).m ↔
      x ∈ a.m ∧ x ∈ b.m ∧ ∀ s ∈ sets, x ∈ s.m := by
  unfold Intersection
  have hstep : ∀ (res : GoSet T) (item y : T),
      y ∈ ((fun res item =>
        let res1 := if !(Has a [item]) || !(Has b [item])
          then Remove res [item] else res
        sets.foldl
          (fun r s => if !(Has s [item]) then Remove r [item] else r) res1)
        res item).m ↔
        y ∈ res.m ∧
          (y = item → item ∈ a.m ∧ item ∈ b.m ∧ ∀ s ∈ sets, item ∈ s.m) := by
    intro res item y
    simp only []
    rw [mem_condRemove_fixed]
    have h1 : y ∈ (if !(Has a [item]) || !(Has b [item])
        then Remove res [item] else res).m ↔
        y ∈ res.m ∧ (y = item → item ∈ a.m ∧ item ∈ b.m) := by
      rw [Has_singleton, Has_singleton]
      by_cases hA : item ∈ a.m
      · by_cases hB : item ∈ b.m
        · simp [hA, hB]
        · simp [hA, hB, mem_Remove]
      · simp [hA, mem_Remove]
    rw [h1]
    tauto
  have hfold : ∀ (l : List T) (res : GoSet T),
      x ∈ (l.foldl (fun res item =>
        let res1 := if !(Has a [item]) || !(Has b [item])
          then Remove res [item] else res
        sets.foldl
          (fun r s => if !(Has s [item]) then Remove r [item] else r) res1)
        res).m ↔
        x ∈ res.m ∧
          (x ∈ l → x ∈ a.m ∧ x ∈ b.m ∧ ∀ s ∈ sets, x ∈ s.m) := by
    intro l
    induction l with
    | nil => simp
    | cons c cs ih =>
      intro res
      rw [List.foldl_cons, ih, hstep res c x]
      constructor
      · rintro ⟨⟨hr, h1⟩, h2⟩
        refine ⟨hr, ?_⟩
        intro hx
        rcases List.mem_cons.mp hx with rfl | hx
        · exact h1 rfl
        · exact h2 hx
      · rintro ⟨hr, h⟩
        exact ⟨⟨hr, fun hx => hx ▸ h (hx ▸ List.mem_cons_self c cs)⟩,
          fun hx => h (List.mem_cons_of_mem c hx)⟩
  rw [hfold]
  constructor
  · rintro ⟨hu, h⟩
    exact h hu
  · rintro ⟨ha, hb, hrest⟩
    exact ⟨mem_Union.mpr (Or.inl ha), fun _ => ⟨ha, hb, hrest⟩⟩

theorem nodup_Intersection {a b : GoSet T} {sets : List (GoSet T)} :
    Inv (Intersection a b sets) := by
  unfold Intersection
  have hstep : ∀ (res : GoSet T) (item : T), Inv res →
      Inv ((fun res item =>
        let res1 := if !(Has a [item]) || !(Has b [item])
          then Remove res [item] else res
        sets.foldl
          (fun r s => if !(Has s [item]) then Remove r [item] else r) res1)
        res item) := by
    intro res item hres
    simp only []
    have h1 : Inv (if !(Has a [item]) || !(Has b [item])
        then Remove res [item] else res) := by
      by_cases h : (!(Has a [item]) || !(Has b [item])) = true
      · simpa [h] using nodup_Remove hres
      · simpa [h] using hres
    have hinner : ∀ (l : List (GoSet T)) (r : GoSet T), Inv r →
        Inv (l.foldl
          (fun r s => if !(Has s [item]) then Remove r [item] else r) r) := by
      intro l
      induction l with
      | nil => exact fun _ h => h
      | cons c cs ih =>
        intro r hr
        refine ih _ ?_
        by_cases hc : (!(Has c [item])) = true
        · simpa [hc] using nodup_Remove hr
        · simpa [hc] using hr
    exact hinner sets _ h1
  have hfold : ∀ (l : List T) (res : GoSet T), Inv res →
      Inv (l.foldl (fun res item =>
        let res1 := if !(Has a [item]) || !(Has b [item])
          then Remove res [item] else res
        sets.foldl
          (fun r s => if !(Has s [item]) then Remove r [item] else r) res1)
        res) := by
    intro l
    induction l with
    | nil => exact fun _ h => h
    | cons c cs ih => exact fun res hres => ih _ (hstep res c hres)
  exact hfold _ _ nodup_Union

theorem length_eq_of_same_mem {l1 l2 : List T} (h1 : l1.Nodup)
    (h2 : l2.Nodup) (h : ∀ x, x ∈ l1 ↔ x ∈ l2) : l1.length = l2.length := by
  have heq : l1.toFinset = l2.toFinset := by
    ext x
    rw [List.mem_toFinset, List.mem_toFinset]
    exact h x
  rw [← List.toFinset_card_of_nodup h1, ← List.toFinset_card_of_nodup h2, heq]

/-- A single client call on a set: `Add(items...)` or `Remove(items...)`. -/
inductive SetOp (T : Type) where
  | add (items : List T)
  | remove (items : List T)

/-- Execute one call on the set. -/
def applyOp (s : GoSet T) : SetOp T → GoSet T
  | .add items => Add s items
  | .remove items => Remove s items

/-- Execute a sequence of calls, left to right. -/
def applyOps (s : GoSet T) (ops : List (SetOp T)) : GoSet T :=
  ops.foldl applyOp s

/-- How one call changes whether `x` is a member: an `Add` naming `x` makes it
a member, a `Remove` naming `x` drops it, anything else leaves it alone. -/
def liveStep (x : T) (b : Bool) : SetOp T → Bool
  | .add items => if x ∈ items then true else b
  | .remove items => if x ∈ items then false else b

/-- Whether `x` was added and not subsequently removed over the sequence. -/
def liveAfter (ops : List (SetOp T)) (x : T) : Bool :=
  ops.foldl (liveStep x) false

/-- All items ever named by an `Add` call of the sequence. -/
def addedItems : List (SetOp T) → List T
  | [] => []
  | .add items :: rest => items ++ addedItems rest
  | .remove _ :: rest => addedItems rest

theorem decide_mem_applyOp {s : GoSet T} {x : T} (op : SetOp T) :
    decide (x ∈ (applyOp s op).m) = liveStep x (decide (x ∈ s.m)) op := by
  cases op with
  | add items =>
    simp only [applyOp, liveStep]
    by_cases h : x ∈ items
    · simp [h, mem_Add]
    · simp [h, mem_Add]
  | remove items =>
    simp only [applyOp, liveStep]
    by_cases h : x ∈ items
    · simp [h, mem_Remove]
    · simp [h, mem_Remove]

theorem mem_applyOps {ops : List (SetOp T)} {s : GoSet T} {x : T} :
    x ∈ (applyOps s ops).m ↔
      ops.foldl (liveStep x) (decide (x ∈ s.m)) = true := by
  induction ops generalizing s with
  | nil => simp [applyOps]
  | cons op rest ih =>
    show x ∈ (applyOps (applyOp s op) rest).m ↔ _
    rw [ih, List.foldl_cons, decide_mem_applyOp]

theorem nodup_applyOps {ops : List (SetOp T)} {s : GoSet T} (h : Inv s) :
    Inv (applyOps s ops) := by
  induction ops generalizing s with
  | nil => exact h
  | cons op rest ih =>
    refine ih ?_
    cases op with
    | add items => exact nodup_Add h
    | remove items => exact nodup_Remove h

theorem live_mem_addedItems {ops : List (SetOp T)} {x : T} :
    ∀ {b : Bool}, ops.foldl (liveStep x) b = true →
      b = true ∨ x ∈ addedItems ops := by
  induction ops with
  | nil => exact fun h => Or.inl h
  | cons op rest ih =>
    intro b h
    rw [List.foldl_cons] at h
    rcases ih h with hstep | hrest
    · cases op with
      | add items =>
        simp only [liveStep] at hstep
        by_cases hx : x ∈ items
        · exact Or.inr (by simp [addedItems, hx])
        · simp only [hx, if_neg, if_false] at hstep
          exact Or.inl hstep
      | remove items =>
        simp only [liveStep] at hstep
        by_cases hx : x ∈ items
        · simp [hx] at hstep
        · simp only [hx, if_neg, if_false] at hstep
          exact Or.inl hstep
    · cases op with
      | add items => exact Or.inr (by simp [addedItems, hrest])
      | remove items => exact Or.inr hrest

/-
A small heap model for the aliasing claim about `Copy`: sets live at indices
of a heap, mutating methods rewrite only the entry of their receiver, and
`Copy` allocates a fresh entry built by re-adding the source's items.
-/

/-- Read the set stored at index `h` of the heap. -/
def getSet (heap : List (GoSet T)) (h : Nat) : GoSet T :=
  heap.getD h ⟨[]⟩

/-- Rewrite the heap entry at one index. -/
def modifyAt (f : GoSet T → GoSet T) : Nat → List (GoSet T) → List (GoSet T)
  | _, [] => []
  | 0, s :: rest => f s :: rest
  | n + 1, s :: rest => s :: modifyAt f n rest

/-- A mutating method call: Add, Remove, Pop, Clear, Merge or Separate.
Merge and Separate read their argument set from another heap index. -/
inductive Mut (T : Type) where
  | madd (items : List T)
  | mremove (items : List T)
  | mpop
  | mclear
  | mmerge (src : Nat)
  | mseparate (src : Nat)

/-- The function a mutating call applies to its receiver's storage. -/
def mutFun (heap : List (GoSet T)) : Mut T → GoSet T → GoSet T
  | .madd items => fun s => Add s items
  | .mremove items => fun s => Remove s items
  | .mpop => fun s => (Pop s).2
  | .mclear => Clear
  | .mmerge src => fun s => Merge s (getSet heap src)
  | .mseparate src => fun s => Separate s (getSet heap src)

/-- Run one mutating call on the set at index `hdl`. -/
def applyMut (heap : List (GoSet T)) (hdl : Nat) (mu : Mut T) :
    List (GoSet T) :=
  modifyAt (mutFun heap mu) hdl heap

/-- Run a sequence of mutating calls, each aimed at a heap index. -/
def applyMuts (heap : List (GoSet T)) (muts : List (Nat × Mut T)) :
    List (GoSet T) :=
  muts.foldl (fun hp p => applyMut hp p.1 p.2) heap

/-- `Copy` of the set at index `h`: allocate a new entry at the end of the
heap holding a fresh set rebuilt from the source's items. -/
def copyAt (heap : List (GoSet T)) (h : Nat) : List (GoSet T) :=
  heap ++ [Copy (getSet heap h)]

theorem getSet_modifyAt_ne {f : GoSet T → GoSet T} {h h' : Nat}
    {heap : List (GoSet T)} (hne : h ≠ h') :
    getSet (modifyAt f h heap) h' = getSet heap h' := by
  induction heap generalizing h h' with
  | nil => cases h <;> rfl
  | cons s rest ih =>
    cases h with
    | zero =>
      cases h' with
      | zero => exact absurd rfl hne
      | succ k => rfl
    | succ n =>
      cases h' with
      | zero => rfl
      | succ k =>
        show getSet (modifyAt f n rest) k = getSet rest k
        exact ih (fun hc => hne (by rw [hc]))

theorem getSet_applyMuts_ne {heap : List (GoSet T)}
    {muts : List (Nat × Mut T)} {h' : Nat}
    (hall : ∀ p ∈ muts, p.1 ≠ h') :
    getSet (applyMuts heap muts) h' = getSet heap h' := by
  induction muts generalizing heap with
  | nil => rfl
  | cons p rest ih =>
    show getSet (applyMuts (applyMut heap p.1 p.2) rest) h' = _
    rw [ih (fun q hq => hall q (List.mem_cons_of_mem p hq)),
      applyMut, getSet_modifyAt_ne (hall p (List.mem_cons_self p rest))]

theorem getSet_copyAt_new {heap : List (GoSet T)} {h : Nat} :
    getSet (copyAt heap h) heap.length = Copy (getSet heap h) := by
  unfold copyAt getSet
  induction heap with
  | nil => rfl
  | cons s rest ih => simpa using ih

theorem getSet_copyAt_old {heap : List (GoSet T)} {h h' : Nat}
    (hlt : h' < heap.length) : getSet (copyAt heap h) h' = getSet heap h' := by
  unfold copyAt getSet
  simp [List.getD_eq_getElem?_getD, List.getElem?_append_left hlt]

/-
A lock-event model for the thread-safe variant: each method of `SetTS`
compiles to the sequence of lock operations and storage accesses it performs
on its receiver, read off the source text.
-/

/-- An event on the receiver's own lock or storage. -/
inductive LockEv where
  | rlock
  | runlock
  | wlock
  | wunlock
  | readS
  | writeS
deriving DecidableEq, Repr

/-- Scan a trace tracking the held lock (0 none, 1 read, 2 write): storage
reads demand some lock held, storage writes demand the write lock. -/
def checkFrom : Nat → List LockEv → Bool
  | _, [] => true
  | mode, e :: rest =>
    match e with
    | .rlock => if mode == 0 then checkFrom 1 rest else false
    | .runlock => if mode == 1 then checkFrom 0 rest else false
    | .wlock => if mode == 0 then checkFrom 2 rest else false
    | .wunlock => if mode == 2 then checkFrom 0 rest else false
    | .readS => if mode != 0 then checkFrom mode rest else false
    | .writeS => if mode == 2 then checkFrom mode rest else false

/-- A trace is well locked when every storage access happens under the
appropriate lock. -/
def wellLocked (t : List LockEv) : Bool :=
  checkFrom 0 t

/-- A public call on a `SetTS`, with the parameters that shape its trace:
`n` counts the items or members touched, `b` tells whether the set was
empty. -/
inductive TSOp where
  | addOp (n : Nat)
  | removeOp (n : Nat)
  | popOp (empty : Bool)
  | hasOp (n : Nat)
  | sizeOp
  | clearOp
  | isEqualOp (n : Nat)
  | isSubsetOp (n : Nat)
  | eachOp (n : Nat)
  | listOp (n : Nat)
  | copyOp (n : Nat)
  | mergeOp (n : Nat)

/-- The receiver-side event trace of each `SetTS` method, read off the Go
source: all methods bracket their storage accesses in `l.Lock()`/`l.RLock()`
pairs, except `Pop`, which reads under the read lock and then re-acquires the
write lock for the delete, and `Copy`, whose loop ranges over `s.m` without
taking any lock at all. -/
def traceTS : TSOp → List LockEv
  | .addOp n => if n = 0 then [] else
      [.wlock] ++ List.replicate n .writeS ++ [.wunlock]
  | .removeOp n => if n = 0 then [] else
      [.wlock] ++ List.replicate n .writeS ++ [.wunlock]
  | .popOp empty => if empty then [.rlock, .readS, .runlock] else
      [.rlock, .readS, .runlock, .wlock, .writeS, .wunlock]
  | .hasOp n => if n = 0 then [] else
      [.rlock] ++ List.replicate n .readS ++ [.runlock]
  | .sizeOp => [.rlock, .readS, .runlock]
  | .clearOp => [.wlock, .writeS, .wunlock]
  | .isEqualOp n => [.rlock] ++ List.replicate (n + 1) .readS ++ [.runlock]
  | .isSubsetOp n => [.rlock] ++ List.replicate n .readS ++ [.runlock]
  | .eachOp n => [.rlock] ++ List.replicate n .readS ++ [.runlock]
  | .listOp n => [.rlock] ++ List.replicate (n + 1) .readS ++ [.runlock]
  | .copyOp n => List.replicate (n + 1) .readS
  | .mergeOp n => [.wlock] ++ List.replicate n .writeS ++ [.wunlock]

/-
The `New` constructor selecting between the two variants.  `SetType` is an
integer type with constants `ThreadSafe = 0` and `NonThreadSafe = 1`.
-/

/-- SetType constant `ThreadSafe` (first of the iota block). -/
def ThreadSafe : Int := 0

/-- SetType constant `NonThreadSafe`. -/
def NonThreadSafe : Int := 1

/-- Which implementation a constructed set uses. -/
inductive SetVariant where
  | ts
  | nonTS
deriving DecidableEq, Repr

/-- `New` returns the non-thread-safe implementation exactly when its
argument equals `NonThreadSafe`, and the thread-safe one otherwise. -/
def New (setType : Int) : SetVariant :=
  if setType = NonThreadSafe then .nonTS else .ts

theorem mem_SymmetricDifference {a b : GoSet T} {x : T} :
    x ∈ (SymmetricDifference a b).m ↔
      (x ∈ a.m ∧ x ∉ b.m) ∨ (x ∈ b.m ∧ x ∉ a.m) := by
  unfold SymmetricDifference
  rw [mem_Union]
  simp [mem_Difference]

theorem checkFrom_writes (n : Nat) :
    checkFrom 2 (List.replicate n .writeS ++ [.wunlock]) = true := by
  induction n with
  | zero => rfl
  | succ k ih => simpa [List.replicate_succ, checkFrom] using ih

theorem checkFrom_reads (n : Nat) :
    checkFrom 1 (List.replicate n .readS ++ [.runlock]) = true := by
  induction n with
  | zero => rfl
  | succ k ih => simpa [List.replicate_succ, checkFrom] using ih

/-- Every `SetTS` method other than `Copy` brackets its storage accesses in
the appropriate lock. -/
theorem wellLocked_traceTS_except_copy (op : TSOp)
    (hop : ∀ n, op ≠ TSOp.copyOp n) : wellLocked (traceTS op) = true := by
  cases op with
  | addOp n =>
    rcases Nat.eq_zero_or_pos n with rfl | hn
    · rfl
    · simpa [traceTS, Nat.pos_iff_ne_zero.mp hn, wellLocked, checkFrom]
        using checkFrom_writes n
  | removeOp n =>
    rcases Nat.eq_zero_or_pos n with rfl | hn
    · rfl
    · simpa [traceTS, Nat.pos_iff_ne_zero.mp hn, wellLocked, checkFrom]
        using checkFrom_writes n
  | popOp empty => cases empty <;> rfl
  | hasOp n =>
    rcases Nat.eq_zero_or_pos n with rfl | hn
    · rfl
    · simpa [traceTS, Nat.pos_iff_ne_zero.mp hn, wellLocked, checkFrom]
        using checkFrom_reads n
  | sizeOp => rfl
  | clearOp => rfl
  | isEqualOp n =>
    simpa [traceTS, wellLocked, checkFrom] using checkFrom_reads (n + 1)
  | isSubsetOp n =>
    simpa [traceTS, wellLocked, checkFrom] using checkFrom_reads n
  | eachOp n =>
    simpa [traceTS, wellLocked, checkFrom] using checkFrom_reads n
  | listOp n =>
    simpa [traceTS, wellLocked, checkFrom] using checkFrom_reads (n + 1)
  | copyOp n => exact absurd rfl (hop n)
  | mergeOp n =>
    simpa [traceTS, wellLocked, checkFrom] using checkFrom_writes n

/-- Claim C1: starting from a fresh set, after any finite sequence of Add and
Remove calls the final Size equals the number of distinct elements that were
added and not subsequently removed. -/
theorem size_after_ops_eq_live_count (ops : List (SetOp T)) :
    Size (applyOps newNonTS ops) =
      ((addedItems ops).dedup.filter (fun x => liveAfter ops x)).length := by
  refine length_eq_of_same_mem (nodup_applyOps (by simp [Inv, newNonTS]))
    ((List.nodup_dedup _).filter _) ?_
  intro x
  rw [List.mem_filter, List.mem_dedup, mem_applyOps]
  have hinit : decide (x ∈ (newNonTS (T := T)).m) = false := by
    simp [newNonTS]
  rw [hinit]
  show ops.foldl (liveStep x) false = true ↔ _
  constructor
  · intro h
    rcases live_mem_addedItems h with hf | hmem
    · exact absurd hf (by simp)
    · exact ⟨hmem, h⟩
  · exact fun hx => hx.2

/-- Claim C2: IsEqual returns true iff the sizes agree and every element of
the argument is a member of the receiver; for duplicate-free storage that
says the two sets hold exactly the same elements. -/
theorem isEqual_characterization (s t : GoSet T) (hs : Inv s) (ht : Inv t) :
    (IsEqual s t = true ↔ Size s = Size t ∧ ∀ x ∈ t.m, x ∈ s.m) ∧
      (IsEqual s t = true ↔ ∀ x, x ∈ s.m ↔ x ∈ t.m) :=
  ⟨IsEqual_iff, IsEqual_iff_same_mem hs ht⟩

theorem isEqual_characterization_witness :
    ((IsEqual (GoSet.mk [1, 2]) (GoSet.mk [2, 1]) = true ↔
        Size (GoSet.mk [1, 2] : GoSet Nat) = Size (GoSet.mk [2, 1]) ∧
          ∀ x ∈ (GoSet.mk [2, 1] : GoSet Nat).m,
            x ∈ (GoSet.mk [1, 2] : GoSet Nat).m) ∧
      (IsEqual (GoSet.mk [1, 2]) (GoSet.mk [2, 1]) = true ↔
        ∀ x, x ∈ (GoSet.mk [1, 2] : GoSet Nat).m ↔
          x ∈ (GoSet.mk [2, 1] : GoSet Nat).m)) :=
  isEqual_characterization (GoSet.mk [1, 2]) (GoSet.mk [2, 1])
    (by unfold Inv; decide) (by unfold Inv; decide)

/-- Claim C3: Intersection of two or more sets holds exactly the elements
present in every input, and every member of the result lies in the union
pool the algorithm starts from. -/
theorem intersection_members (a b : GoSet T) (sets : List (GoSet T)) :
    (∀ x, x ∈ (Intersection a b sets).m ↔
        x ∈ a.m ∧ x ∈ b.m ∧ ∀ s ∈ sets, x ∈ s.m) ∧
      ∀ x ∈ (Intersection a b sets).m, x ∈ (Union a b sets).m := by
  refine ⟨fun x => mem_Intersection, fun x hx => ?_⟩
  exact mem_Union.mpr (Or.inl (mem_Intersection.mp hx).1)

theorem intersection_members_witness :
    ((∀ x, x ∈ (Intersection (GoSet.mk [1, 2]) (GoSet.mk [2, 3])
        [GoSet.mk [2, 4]]).m ↔
        x ∈ [1, 2] ∧ x ∈ [2, 3] ∧
          ∀ s ∈ [GoSet.mk [2, 4]], x ∈ s.m) ∧
      ∀ x ∈ (Intersection (GoSet.mk [1, 2]) (GoSet.mk [2, 3])
          [GoSet.mk [2, 4]]).m,
        x ∈ (Union (GoSet.mk [1, 2]) (GoSet.mk [2, 3])
          [GoSet.mk ([2, 4] : List Nat)]).m) :=
  intersection_members (GoSet.mk [1, 2]) (GoSet.mk [2, 3]) [GoSet.mk [2, 4]]

/-- Claim C4: Union of two sets contains every element of each input and its
size satisfies inclusion-exclusion against the Intersection. -/
theorem union_size_inclusion_exclusion (a b : GoSet T) (ha : Inv a)
    (hb : Inv b) :
    (∀ x ∈ a.m, x ∈ (Union a b []).m) ∧
      (∀ x ∈ b.m, x ∈ (Union a b []).m) ∧
      Size (Union a b []) = Size a + Size b - Size (Intersection a b []) := by
  refine ⟨fun x hx => mem_Union.mpr (Or.inl hx),
    fun x hx => mem_Union.mpr (Or.inr (Or.inl hx)), ?_⟩
  have hU : (Union a b ([] : List (GoSet T))).m.toFinset =
      a.m.toFinset ∪ b.m.toFinset := by
    ext x
    simp [mem_Union]
  have hI : (Intersection a b ([] : List (GoSet T))).m.toFinset =
      a.m.toFinset ∩ b.m.toFinset := by
    ext x
    simp [mem_Intersection]
  have h1 : Size (Union a b []) = (a.m.toFinset ∪ b.m.toFinset).card := by
    rw [← hU, List.toFinset_card_of_nodup nodup_Union]
    rfl
  have h2 : Size (Intersection a b []) =
      (a.m.toFinset ∩ b.m.toFinset).card := by
    rw [← hI, List.toFinset_card_of_nodup nodup_Intersection]
    rfl
  have h3 : Size a = a.m.toFinset.card :=
    (List.toFinset_card_of_nodup ha).symm
  have h4 : Size b = b.m.toFinset.card :=
    (List.toFinset_card_of_nodup hb).symm
  have h5 := Finset.card_union_add_card_inter a.m.toFinset b.m.toFinset
  omega

theorem union_size_inclusion_exclusion_witness :
    ((∀ x ∈ (GoSet.mk [1, 2] : GoSet Nat).m,
        x ∈ (Union (GoSet.mk [1, 2]) (GoSet.mk [2, 3]) []).m) ∧
      (∀ x ∈ (GoSet.mk [2, 3] : GoSet Nat).m,
        x ∈ (Union (GoSet.mk [1, 2]) (GoSet.mk [2, 3]) []).m) ∧
      Size (Union (GoSet.mk [1, 2]) (GoSet.mk [2, 3]) []) =
        Size (GoSet.mk [1, 2] : GoSet Nat) +
          Size (GoSet.mk [2, 3] : GoSet Nat) -
          Size (Intersection (GoSet.mk [1, 2]) (GoSet.mk [2, 3]) [])) :=
  union_size_inclusion_exclusion (GoSet.mk [1, 2]) (GoSet.mk [2, 3])
    (by unfold Inv; decide) (by unfold Inv; decide)

/-- Claim C5: SymmetricDifference is the union of the two directed
differences and is empty exactly when the two sets are IsEqual. -/
theorem symmetricDifference_spec (a b : GoSet T) (ha : Inv a) (hb : Inv b) :
    SymmetricDifference a b =
        Union (Difference a b []) (Difference b a []) [] ∧
      (IsEmpty (SymmetricDifference a b) = true ↔ IsEqual a b = true) := by
  refine ⟨rfl, ?_⟩
  rw [IsEqual_iff_same_mem ha hb]
  unfold IsEmpty Size
  rw [Nat.beq_eq_true_eq, List.length_eq_zero, List.eq_nil_iff_forall_not_mem]
  constructor
  · intro h x
    have hx := h x
    rw [mem_SymmetricDifference] at hx
    push_neg at hx
    constructor
    · intro hxa
      by_contra hxb
      exact hxb (hx.1 hxa)
    · intro hxb
      by_contra hxa
      exact hxa (hx.2 hxb)
  · intro h x hx
    rw [mem_SymmetricDifference] at hx
    rcases hx with ⟨hxa, hxb⟩ | ⟨hxb, hxa⟩
    · exact hxb ((h x).mp hxa)
    · exact hxa ((h x).mpr hxb)

theorem symmetricDifference_spec_witness :
    (SymmetricDifference (GoSet.mk [1, 2]) (GoSet.mk [2, 1]) =
        Union (Difference (GoSet.mk [1, 2]) (GoSet.mk [2, 1]) [])
          (Difference (GoSet.mk [2, 1]) (GoSet.mk [1, 2]) []) [] ∧
      (IsEmpty (SymmetricDifference (GoSet.mk ([1, 2] : List Nat))
          (GoSet.mk [2, 1])) = true ↔
        IsEqual (GoSet.mk ([1, 2] : List Nat)) (GoSet.mk [2, 1]) = true)) :=
  symmetricDifference_spec (GoSet.mk [1, 2]) (GoSet.mk [2, 1])
    (by unfold Inv; decide) (by unfold Inv; decide)

/-- Claim C6: Copy produces a set IsEqual to the original at the instant of
the copy, the original is untouched by the allocation, and any sequence of
mutating calls aimed away from an entry (in particular, calls on the copy
for the original and calls on the original for the copy) leaves that entry's
storage unchanged. -/
theorem copy_no_aliasing (heap : List (GoSet T)) (h : Nat)
    (hlt : h < heap.length) (hinv : Inv (getSet heap h))
    (muts : List (Nat × Mut T)) :
    IsEqual (getSet (copyAt heap h) heap.length) (getSet heap h) = true ∧
      getSet (copyAt heap h) h = getSet heap h ∧
      ((∀ p ∈ muts, p.1 ≠ heap.length) →
        getSet (applyMuts (copyAt heap h) muts) heap.length =
          getSet (copyAt heap h) heap.length) ∧
      ((∀ p ∈ muts, p.1 ≠ h) →
        getSet (applyMuts (copyAt heap h) muts) h =
          getSet (copyAt heap h) h) := by
  refine ⟨?_, getSet_copyAt_old hlt, fun hall => getSet_applyMuts_ne hall,
    fun hall => getSet_applyMuts_ne hall⟩
  rw [getSet_copyAt_new, IsEqual_iff_same_mem (nodup_Copy _) hinv]
  intro x
  exact mem_Copy

theorem copy_no_aliasing_witness :
    (IsEqual
        (getSet (copyAt [GoSet.mk ([1, 2] : List Nat)] 0)
          [GoSet.mk ([1, 2] : List Nat)].length)
        (getSet [GoSet.mk ([1, 2] : List Nat)] 0) = true ∧
      getSet (copyAt [GoSet.mk ([1, 2] : List Nat)] 0) 0 =
        getSet [GoSet.mk ([1, 2] : List Nat)] 0 ∧
      ((∀ p ∈ [((0 : Nat), Mut.madd [3])],
          p.1 ≠ [GoSet.mk ([1, 2] : List Nat)].length) →
        getSet (applyMuts (copyAt [GoSet.mk ([1, 2] : List Nat)] 0)
            [((0 : Nat), Mut.madd [3])])
          [GoSet.mk ([1, 2] : List Nat)].length =
          getSet (copyAt [GoSet.mk ([1, 2] : List Nat)] 0)
            [GoSet.mk ([1, 2] : List Nat)].length) ∧
      ((∀ p ∈ [((0 : Nat), Mut.madd [3])], p.1 ≠ 0) →
        getSet (applyMuts (copyAt [GoSet.mk ([1, 2] : List Nat)] 0)
            [((0 : Nat), Mut.madd [3])]) 0 =
          getSet (copyAt [GoSet.mk ([1, 2] : List Nat)] 0) 0)) :=
  copy_no_aliasing [GoSet.mk [1, 2]] 0 (by decide)
    (by unfold Inv getSet; decide) [((0 : Nat), Mut.madd [3])]

/-- Claim C7: Has with no arguments returns false, and with one or more
arguments returns true exactly when every named element is a member. -/
theorem has_spec (s : GoSet T) (items : List T) :
    Has s [] = false ∧
      (items ≠ [] → (Has s items = true ↔ ∀ x ∈ items, x ∈ s.m)) := by
  refine ⟨Has_nil s, fun hne => ?_⟩
  rw [Has_iff]
  tauto

theorem has_spec_witness :
    (Has (GoSet.mk ([1, 2] : List Nat)) [] = false ∧
      ([1] ≠ ([] : List Nat) →
        (Has (GoSet.mk [1, 2]) [1] = true ↔
          ∀ x ∈ [1], x ∈ (GoSet.mk ([1, 2] : List Nat)).m))) :=
  has_spec (GoSet.mk [1, 2]) [1]

/-- Claim C8: Pop on an empty set reports not-found and leaves the set
unchanged; on a non-empty set it reports found, returns a member, and
removes exactly that member (so the size drops by one). -/
theorem pop_spec (s : GoSet T) (hinv : Inv s) :
    (s.m = [] → Pop s = (none, s)) ∧
      (s.m ≠ [] → ∃ x, (Pop s).1 = some x ∧ x ∈ s.m ∧
        (∀ y, y ∈ (Pop s).2.m ↔ y ∈ s.m ∧ y ≠ x) ∧
        Size (Pop s).2 = Size s - 1) := by
  obtain ⟨m⟩ := s
  cases m with
  | nil => exact ⟨fun _ => rfl, fun hne => absurd rfl hne⟩
  | cons x rest =>
    constructor
    · intro h
      cases h
    · intro _
      refine ⟨x, rfl, List.mem_cons_self x rest, ?_, rfl⟩
      intro y
      have hx : x ∉ rest := (List.nodup_cons.mp hinv).1
      show y ∈ rest ↔ _
      constructor
      · intro hy
        exact ⟨List.mem_cons_of_mem x hy, fun hyx => hx (hyx ▸ hy)⟩
      · rintro ⟨hy, hne⟩
        rcases List.mem_cons.mp hy with rfl | hy
        · exact absurd rfl hne
        · exact hy

theorem pop_spec_witness :
    (((GoSet.mk ([5, 6] : List Nat)).m = [] →
        Pop (GoSet.mk [5, 6]) = (none, GoSet.mk [5, 6])) ∧
      ((GoSet.mk ([5, 6] : List Nat)).m ≠ [] →
        ∃ x, (Pop (GoSet.mk ([5, 6] : List Nat))).1 = some x ∧
          x ∈ (GoSet.mk ([5, 6] : List Nat)).m ∧
          (∀ y, y ∈ (Pop (GoSet.mk ([5, 6] : List Nat))).2.m ↔
            y ∈ (GoSet.mk ([5, 6] : List Nat)).m ∧ y ≠ x) ∧
          Size (Pop (GoSet.mk ([5, 6] : List Nat))).2 =
            Size (GoSet.mk ([5, 6] : List Nat)) - 1)) :=
  pop_spec (GoSet.mk [5, 6]) (by unfold Inv; decide)

/-- Claim C9 fails on the code: the thread-safe `Copy` ranges over the
receiver's storage without taking any lock, so its event trace reads the
storage while no lock is held. -/
theorem copyTS_reads_storage_unlocked :
    wellLocked (traceTS (TSOp.copyOp 0)) = false ∧
      LockEv.readS ∈ traceTS (TSOp.copyOp 0) := by
  decide

/-- Claim C10: New returns the non-thread-safe variant exactly on the value
NonThreadSafe; every other integer, named constant or not, yields the
thread-safe variant. -/
theorem new_variant_selection :
    ∀ t : Int, (New t = SetVariant.nonTS ↔ t = NonThreadSafe) ∧
      (t ≠ NonThreadSafe → New t = SetVariant.ts) := by
  intro t
  unfold New
  by_cases h : t = NonThreadSafe
  · simp [h]
  · simp [h]

theorem new_variant_selection_witness :
    ((New 5 = SetVariant.nonTS ↔ (5 : Int) = NonThreadSafe) ∧
      ((5 : Int) ≠ NonThreadSafe → New 5 = SetVariant.ts)) :=
  new_variant_selection 5

end GoSet
